import Mathlib

/-!
Verification of the punch-state and persistence model of the thymed
time-tracking utility (src/thymed/__init__.py).

Modelling conventions:
* Python datetimes are modelled as natural numbers (an instant, e.g. the
  microsecond count since an epoch).  Python's datetime.isoformat /
  datetime.fromisoformat round-trip exactly at microsecond precision for
  naive datetimes, so the textual encoding is modelled as the injective
  decimal rendering of the natural number, with its exact parse.
* A punch interval is a tuple of datetimes, modelled as a list of naturals
  (the code uses tuples of length 1 for open punches, length 2 for closed).
* The two JSON stores are modelled as parsed documents: association lists
  from string keys to values, in file order.  Python dict assignment keeps
  the position of an existing key and appends a fresh key at the end, and
  json.dump preserves dict order.
* Fallible Python code (raising exceptions) is modelled with Option or a
  dedicated result type.
-/

namespace Thymed

/-! ### Decimal encoding of naturals and integers

Models Python str(), int(), datetime.isoformat and datetime.fromisoformat
at the level of precision the program relies on: an injective decimal
string encoding with an exact round-trip. -/

/-- Little-endian base-10 digits of n, with explicit fuel so the definition
is structural (fuel at least n suffices). -/
def toDigitsAux : Nat → Nat → List Nat
  | 0, _ => []
  | fuel + 1, n => if n = 0 then [] else n % 10 :: toDigitsAux fuel (n / 10)

/-- Little-endian base-10 digits of a natural; 0 is rendered as a single 0
digit, as Python str(0) is a one-character string. -/
def natDigits (n : Nat) : List Nat :=
  if n = 0 then [0] else toDigitsAux n n

/-- Value of a little-endian base-10 digit list. -/
def ofDigits : List Nat → Nat
  | [] => 0
  | d :: ds => d + 10 * ofDigits ds

/-- The character of a decimal digit. -/
def digitChar (d : Nat) : Char := Char.ofNat (48 + d)

/-- Parse one decimal digit character. -/
def charToDigit (c : Char) : Option Nat :=
  if 48 ≤ c.toNat ∧ c.toNat ≤ 57 then some (c.toNat - 48) else none

/-- Option-valued traversal of a list, failing if any element fails.
Models a Python loop that may raise on any element. -/
def traverseOption (f : α → Option β) : List α → Option (List β)
  | [] => some []
  | a :: rest =>
    match f a with
    | none => none
    | some b =>
      match traverseOption f rest with
      | none => none
      | some bs => some (b :: bs)

/-- Decimal rendering of a natural number (Python str on a nonnegative int,
and the model of datetime.isoformat). -/
def natToString (n : Nat) : String :=
  String.mk ((natDigits n).reverse.map digitChar)

/-- Parse a nonempty all-digits character list as a natural. -/
def charsToNat (l : List Char) : Option Nat :=
  if l = [] then none
  else (traverseOption charToDigit l).map (fun ds => ofDigits ds.reverse)

/-- Parse a decimal string as a natural (model of datetime.fromisoformat
on strings produced by isoformat; fails on garbage, as Python raises). -/
def strToNat (s : String) : Option Nat := charsToNat s.data

/-- Decimal rendering of an integer (Python str / f-string on an int). -/
def intToStr (i : Int) : String :=
  if i < 0 then "-" ++ natToString i.natAbs else natToString i.natAbs

/-- Parse a character list as an integer: an optional minus sign followed
by decimal digits. -/
def charsToInt : List Char → Option Int
  | [] => none
  | c :: rest =>
    if c = '-' then (charsToNat rest).map (fun n => -(Int.ofNat n))
    else (charsToNat (c :: rest)).map (fun n => Int.ofNat n)

/-- Parse a decimal string as an integer (model of Python int() on the
canonical decimal strings the program writes; fails on garbage, as
Python int() raises ValueError). -/
def strToInt (s : String) : Option Int := charsToInt s.data

theorem ofDigits_toDigitsAux (fuel : Nat) :
    ∀ n : Nat, n ≤ fuel → ofDigits (toDigitsAux fuel n) = n := by
  induction fuel with
  | zero =>
    intro n hn
    interval_cases n
    simp [toDigitsAux, ofDigits]
  | succ f ih =>
    intro n hn
    by_cases h0 : n = 0
    · simp [toDigitsAux, h0, ofDigits]
    · have hdiv : n / 10 ≤ f := by
        have hlt : n / 10 < n := Nat.div_lt_self (Nat.pos_of_ne_zero h0) (by omega)
        omega
      simp only [toDigitsAux, h0, if_false, ofDigits]
      rw [ih (n / 10) hdiv]
      omega

theorem ofDigits_natDigits (n : Nat) : ofDigits (natDigits n) = n := by
  by_cases h0 : n = 0
  · simp [natDigits, h0, ofDigits]
  · simp only [natDigits, h0, if_false]
    exact ofDigits_toDigitsAux n n le_rfl

theorem mem_toDigitsAux_lt (fuel : Nat) :
    ∀ n d : Nat, d ∈ toDigitsAux fuel n → d < 10 := by
  induction fuel with
  | zero => intro n d hd; simp [toDigitsAux] at hd
  | succ f ih =>
    intro n d hd
    by_cases h0 : n = 0
    · simp [toDigitsAux, h0] at hd
    · simp only [toDigitsAux, h0, if_false, List.mem_cons] at hd
      rcases hd with h | h
      · subst h
        exact Nat.mod_lt n (by omega)
      · exact ih (n / 10) d h

theorem mem_natDigits_lt (n d : Nat) (hd : d ∈ natDigits n) : d < 10 := by
  by_cases h0 : n = 0
  · simp [natDigits, h0] at hd
    omega
  · simp only [natDigits, h0, if_false] at hd
    exact mem_toDigitsAux_lt n n d hd

theorem natDigits_ne_nil (n : Nat) : natDigits n ≠ [] := by
  cases n with
  | zero => simp [natDigits]
  | succ m =>
    rw [natDigits, if_neg (Nat.succ_ne_zero m)]
    simp [toDigitsAux]

theorem charToDigit_digitChar (d : Nat) (hd : d < 10) :
    charToDigit (digitChar d) = some d := by
  interval_cases d <;> decide

theorem digitChar_ne_minus (d : Nat) (hd : d < 10) : digitChar d ≠ '-' := by
  interval_cases d <;> decide

theorem traverseOption_eq_some_of_forall {f : α → Option β} :
    ∀ l : List α, (∀ a ∈ l, ∃ b, f a = some b) →
      ∃ ys, traverseOption f l = some ys := by
  intro l
  induction l with
  | nil => intro _; exact ⟨[], rfl⟩
  | cons a rest ih =>
    intro h
    obtain ⟨b, hb⟩ := h a (List.mem_cons_self a rest)
    obtain ⟨ys, hys⟩ := ih (fun x hx => h x (List.mem_cons_of_mem a hx))
    exact ⟨b :: ys, by simp [traverseOption, hb, hys]⟩

theorem traverseOption_mem {f : α → Option β} :
    ∀ {l : List α} {ys : List β} {a : α} {b : β},
      traverseOption f l = some ys → a ∈ l → f a = some b → b ∈ ys := by
  intro l
  induction l with
  | nil => intro ys a b _ ha; simp at ha
  | cons x rest ih =>
    intro ys a b htr ha hb
    simp only [traverseOption] at htr
    cases hfx : f x with
    | none => rw [hfx] at htr; simp at htr
    | some bx =>
      rw [hfx] at htr
      cases hrest : traverseOption f rest with
      | none => rw [hrest] at htr; simp at htr
      | some bs =>
        rw [hrest] at htr
        simp only [Option.some.injEq] at htr
        subst htr
        rcases List.mem_cons.mp ha with h | h
        · subst h
          rw [hfx] at hb
          simp only [Option.some.injEq] at hb
          subst hb
          exact List.mem_cons_self _ _
        · exact List.mem_cons_of_mem _ (ih hrest h hb)

theorem traverseOption_map_roundtrip {g : β → α} {f : α → Option β}
    (hf : ∀ b : β, f (g b) = some b) :
    ∀ l : List β, traverseOption f (l.map g) = some l := by
  intro l
  induction l with
  | nil => rfl
  | cons b rest ih => simp [traverseOption, hf, ih]

theorem charsToNat_encode (n : Nat) :
    charsToNat ((natDigits n).reverse.map digitChar) = some n := by
  have hmapne : (natDigits n).reverse.map digitChar ≠ [] := by
    intro h
    exact natDigits_ne_nil n (by simpa using h)
  have htr : traverseOption charToDigit ((natDigits n).reverse.map digitChar)
      = some (natDigits n).reverse := by
    have step : ∀ l : List Nat, (∀ d ∈ l, d < 10) →
        traverseOption charToDigit (l.map digitChar) = some l := by
      intro l
      induction l with
      | nil => intro _; rfl
      | cons d rest ih =>
        intro h
        have hd := h d (List.mem_cons_self d rest)
        have hrest := ih (fun x hx => h x (List.mem_cons_of_mem d hx))
        simp [traverseOption, charToDigit_digitChar d hd, hrest]
    exact step (natDigits n).reverse
      (fun d hd => mem_natDigits_lt n d (List.mem_reverse.mp hd))
  unfold charsToNat
  rw [if_neg hmapne, htr]
  simp only [Option.map_some', Option.some.injEq]
  rw [List.reverse_reverse]
  exact ofDigits_natDigits n

theorem strToNat_natToString (n : Nat) : strToNat (natToString n) = some n :=
  charsToNat_encode n

theorem strToInt_intToStr (i : Int) : strToInt (intToStr i) = some i := by
  show charsToInt (intToStr i).data = some i
  by_cases hneg : i < 0
  · have hdata : (intToStr i).data = '-' :: (natDigits i.natAbs).reverse.map digitChar := by
      rw [intToStr, if_pos hneg]
      rfl
    rw [hdata]
    simp only [charsToInt, ite_true]
    rw [charsToNat_encode]
    simp only [Option.map_some', Option.some.injEq, Int.ofNat_eq_coe]
    omega
  · have hdata : (intToStr i).data = (natDigits i.natAbs).reverse.map digitChar := by
      rw [intToStr, if_neg hneg]
      rfl
    rw [hdata]
    cases hdig : (natDigits i.natAbs).reverse with
    | nil =>
      exact absurd (by simpa using congrArg List.reverse hdig) (natDigits_ne_nil i.natAbs)
    | cons d ds =>
      have hd10 : d < 10 :=
        mem_natDigits_lt i.natAbs d
          (List.mem_reverse.mp (hdig ▸ List.mem_cons_self d ds))
      simp only [List.map_cons, charsToInt]
      rw [if_neg (digitChar_ne_minus d hd10)]
      have henc := charsToNat_encode i.natAbs
      rw [hdig, List.map_cons] at henc
      rw [henc]
      simp only [Option.map_some', Option.some.injEq, Int.ofNat_eq_coe]
      omega

/-! ### Data model

Mirrors the ChargeCode dataclass and the two JSON stores of
src/thymed/__init__.py. -/

/-- The ChargeCode dataclass: name, description, id and the times list.
An element of times models one Python tuple of datetimes: length 1 is an
open punch, length 2 a closed one. -/
structure ChargeCode where
  name : String
  description : String
  id : Int
  times : List (List Nat)
deriving DecidableEq, Repr

/-- The metadata stored per id in the registry file by write_class:
name, description and id (times is deleted before writing; the constant
type tag is implicit in the model). -/
structure CodeMeta where
  name : String
  description : String
  id : Int
deriving DecidableEq, Repr

/-- The parsed registry document (thymed_codes.json): string keys in file
order, each with its ChargeCode metadata. -/
abbrev Registry := List (String × CodeMeta)

/-- The parsed ledger document (thymed_punches.dat): string keys in file
order, each with a list of punch tuples of serialized datetimes. -/
abbrev Ledger := List (String × List (List String))

/-- The keys of a parsed JSON object, in file order. -/
def keysOf (l : List (String × α)) : List String := l.map Prod.fst

/-- Python dict indexing on a parsed JSON object. -/
def lookupKey (k : String) : List (String × α) → Option α
  | [] => none
  | kv :: rest => if kv.1 = k then some kv.2 else lookupKey k rest

/-- Python dict.pop: remove the entry of a key, keeping the rest in order. -/
def removeKey (k : String) : List (String × α) → List (String × α)
  | [] => []
  | kv :: rest => if kv.1 = k then rest else kv :: removeKey k rest

/-! ### ChargeCode operations -/

/-- ChargeCode.is_active: None when the times list is empty, otherwise
whether the last tuple has exactly one entry. -/
def isActive (c : ChargeCode) : Option Bool :=
  match c.times.getLast? with
  | none => none
  | some last => some (decide (last.length = 1))

/-- ChargeCode.punch at instant now: when active, close the last tuple by
attaching now as its end; otherwise append a new open tuple (now,). -/
def punch (c : ChargeCode) (now : Nat) : ChargeCode :=
  if isActive c = some true then
    { c with times := c.times.dropLast ++ [[((c.times.getLast?).getD []).headD 0, now]] }
  else
    { c with times := c.times ++ [[now]] }

/-- A sequence of punches at the given instants, in order. -/
def punchN (c : ChargeCode) (ts : List Nat) : ChargeCode :=
  ts.foldl punch c

/-- ChargeCode.__post_init__ hydration over a parsed ledger document:
convert every key with int() (raising on a non-decimal key), and when id
is among them, parse that key's entry with datetime.fromisoformat and
append the result, in file order, to the times the constructor was given.
None models a raised exception. -/
def postInitTimes (led : Ledger) (i : Int) (initial : List (List Nat)) :
    Option (List (List Nat)) :=
  match traverseOption strToInt (keysOf led) with
  | none => none
  | some keys =>
    if i ∈ keys then
      match lookupKey (intToStr i) led with
      | none => none
      | some strTimes =>
        match traverseOption (fun e => traverseOption strToNat e) strTimes with
        | none => none
        | some parsed => some (initial ++ parsed)
    else some initial

/-- Constructing ChargeCode(name, description, id, times=initial) against a
parsed ledger document: the dataclass fields plus the __post_init__
hydration. -/
def mkChargeCode (name description : String) (i : Int)
    (initial : List (List Nat)) (led : Ledger) : Option ChargeCode :=
  (postInitTimes led i initial).map (fun ts => ⟨name, description, i, ts⟩)

/-- The serialized form of a ChargeCode's times written by write_json:
every tuple mapped through datetime.isoformat. -/
def serializeTimes (c : ChargeCode) : List (List String) :=
  c.times.map (fun e => e.map natToString)

/-- ChargeCode.write_json on a parsed ledger document: set the entry of
str(id) to the serialized times.  Python dict assignment keeps the
position of an existing key and appends a missing key at the end; the
whole document is then rewritten. -/
def writeJson (led : Ledger) (c : ChargeCode) : Ledger :=
  if intToStr c.id ∈ keysOf led then
    led.map (fun kv => if kv.1 = intToStr c.id then (kv.1, serializeTimes c) else kv)
  else
    led ++ [(intToStr c.id, serializeTimes c)]

/-- The metadata write_class stores for a ChargeCode (its dict with times
removed and the type tag added). -/
def metaOf (c : ChargeCode) : CodeMeta :=
  ⟨c.name, c.description, c.id⟩

/-- ChargeCode.write_class on a parsed registry document: when str(id) is
not yet a key, append the metadata under the id (serialized as its decimal
string); when the key exists, do nothing, and rewrite the document. -/
def writeClass (reg : Registry) (c : ChargeCode) : Registry :=
  if intToStr c.id ∈ keysOf reg then reg
  else reg ++ [(intToStr c.id, metaOf c)]

/-! ### Registry decoding and lookup -/

/-- A dynamically typed id argument, as Python passes it: the assert in
get_code distinguishes genuine ints from other values such as strings. -/
inductive PyVal where
  | int (i : Int)
  | str (s : String)
deriving DecidableEq, Repr

/-- object_decoder on one registry value: construct
ChargeCode(name, description, id), whose __post_init__ hydrates times from
the ledger document. -/
def decodeEntry (led : Ledger) (m : CodeMeta) : Option ChargeCode :=
  mkChargeCode m.name m.description m.id [] led

/-- json.load of the registry with object_hook=object_decoder: every value
decoded to a ChargeCode (hydrated from the ledger); None models an
exception raised while decoding some entry. -/
def decodeRegistry (reg : Registry) (led : Ledger) :
    Option (List (String × ChargeCode)) :=
  traverseOption (fun kv => (decodeEntry led kv.2).map (fun c => (kv.1, c))) reg

/-- The state of the registry file as get_code's read sees it: parseable,
undecodable (JSONDecodeError), or failing at the I/O level. -/
inductive RegFile where
  | ok (reg : Registry)
  | decodeErr
  | ioErr
deriving DecidableEq, Repr

/-- The observable outcome of get_code. -/
inductive GetCodeResult where
  | assertError
  | ioError
  | raised
  | notFound
  | found (c : ChargeCode)
deriving DecidableEq, Repr

/-- get_code: assert the id is a genuine int before touching the file;
propagate I/O failure; treat an undecodable file as an empty dict (whose
lookup then fails); look the decoded dict up by str(id), reporting a
not-found message and returning None when the key is absent. -/
def getCode (idv : PyVal) (file : RegFile) (led : Ledger) : GetCodeResult :=
  match idv with
  | .str _ => .assertError
  | .int n =>
    match file with
    | .ioErr => .ioError
    | .decodeErr => .notFound
    | .ok reg =>
      match decodeRegistry reg led with
      | none => .raised
      | some codes =>
        match lookupKey (intToStr n) codes with
        | some c => .found c
        | none => .notFound

/-! ### delete_charge -/

/-- The observable outcome of delete_charge: a KeyError from one of the
two pops, an exception raised while decoding the registry, or the
rewritten pair of documents. -/
inductive DeleteResult where
  | keyError
  | raised
  | ok (reg : Registry) (led : Ledger)
deriving DecidableEq, Repr

/-- dict.pop with a dynamically typed key on a parsed JSON object: all
keys of a loaded JSON document are strings, so an int key never matches
and raises KeyError (None); a string key must be present. -/
def popKey (l : List (String × α)) (k : PyVal) : Option (List (String × α)) :=
  match k with
  | .int _ => none
  | .str s => if s ∈ keysOf l then some (removeKey s l) else none

/-- Re-encoding of the decoded registry written back by delete_charge:
each ChargeCode's dict with times removed and the type tag added. -/
def encodeCodes (codes : List (String × ChargeCode)) : Registry :=
  codes.map (fun kv => (kv.1, metaOf kv.2))

/-- delete_charge(id) over the two parsed documents: load the registry
with the decoder, pop id from it, re-encode and rewrite it; then load the
ledger, pop id from it and rewrite it. -/
def deleteCharge (idv : PyVal) (reg : Registry) (led : Ledger) : DeleteResult :=
  match decodeRegistry reg led with
  | none => .raised
  | some codes =>
    match popKey codes idv with
    | none => .keyError
    | some codes2 =>
      match popKey led idv with
      | none => .keyError
      | some led2 => .ok (encodeCodes codes2) led2

/-! ### TimeCard.general_report error behaviour

The only source of the ThymedError in general_report is the ValueError of
the pandas DataFrame constructor on the times list.  pandas builds an
object array of width equal to the longest row, padding shorter rows with
missing values, and raises ValueError when a nonempty data list's width
differs from the number of column labels passed; an empty data list takes
the empty-frame path and raises nothing. -/

/-- Width of the widest row of the data list. -/
def maxRowLen (rows : List (List Nat)) : Nat :=
  (rows.map List.length).foldr Nat.max 0

/-- Models the ValueError of pd.DataFrame(data, columns) for a list of
row tuples: nonempty data whose widest row differs from the column count. -/
def pdValueError (rows : List (List Nat)) (ncols : Nat) : Bool :=
  !rows.isEmpty && (maxRowLen rows != ncols)

/-- Whether TimeCard.general_report raises ThymedError on this code: the
DataFrame of the times with the two columns clock_in, clock_out raises
ValueError, which the method converts into the ThymedError. -/
def generalReportThymedError (c : ChargeCode) : Bool :=
  pdValueError c.times 2

/-! ### Lemmas about the punch state machine -/

/-- The state after k punches of a fresh code: interval count is the
ceiling of k/2, and the code is active exactly after an odd number of
punches (with the tri-state None before the first punch). -/
def punchInv (c : ChargeCode) (k : Nat) : Prop :=
  c.times.length = (k + 1) / 2 ∧
  isActive c = (if k = 0 then none else some (decide (k % 2 = 1)))

theorem isActive_times_ne_nil {c : ChargeCode} {b : Bool}
    (h : isActive c = some b) : c.times ≠ [] := by
  intro hnil
  simp [isActive, hnil] at h

theorem punchInv_zero (c : ChargeCode) (h : c.times = []) : punchInv c 0 := by
  refine ⟨by simp [h], ?_⟩
  simp [isActive, h]

theorem punchInv_step (c : ChargeCode) (k t : Nat) (h : punchInv c k) :
    punchInv (punch c t) (k + 1) := by
  obtain ⟨hlen, hact⟩ := h
  by_cases hk0 : k = 0
  · subst hk0
    rw [if_pos rfl] at hact
    have hnil : c.times = [] := by
      rw [← List.length_eq_zero]
      omega
    rw [punch, if_neg (by simp [hact])]
    refine ⟨by simp [hnil], ?_⟩
    simp [isActive, hnil]
  · rw [if_neg hk0] at hact
    by_cases hodd : k % 2 = 1
    · have hactT : isActive c = some true := by simp [hact, hodd]
      have hne : c.times ≠ [] := isActive_times_ne_nil hactT
      have hpos : 0 < c.times.length := List.length_pos.mpr hne
      rw [punch, if_pos hactT]
      constructor
      · simp only [List.length_append, List.length_dropLast, List.length_cons,
          List.length_nil]
        omega
      · simp only [isActive, List.getLast?_concat]
        rw [if_neg (by omega)]
        have h2 : (k + 1) % 2 = 0 := by omega
        simp [h2]
    · have hactF : isActive c = some false := by simp [hact, hodd]
      rw [punch, if_neg (by simp [hactF])]
      constructor
      · simp only [List.length_append, List.length_cons, List.length_nil, hlen]
        omega
      · simp only [isActive, List.getLast?_concat]
        rw [if_neg (by omega)]
        have h2 : (k + 1) % 2 = 1 := by omega
        simp [h2]

theorem punchInv_punchN :
    ∀ (ts : List Nat) (c : ChargeCode) (k : Nat),
      punchInv c k → punchInv (punchN c ts) (k + ts.length) := by
  intro ts
  induction ts with
  | nil => intro c k h; simpa [punchN] using h
  | cons t rest ih =>
    intro c k h
    have hstep := ih (punch c t) (k + 1) (punchInv_step c k t h)
    have harith : k + (t :: rest).length = (k + 1) + rest.length := by
      simp [List.length_cons]
      omega
    rw [harith]
    simpa [punchN] using hstep

/-- C1.  For a freshly constructed ChargeCode with an empty interval list,
any sequence of punches alternates is_active strictly (active after an odd
number of punches, inactive after an even one) and leaves ceil(k/2)
intervals after the k-th punch, for every k up to the length of the punch
sequence. -/
theorem chargecode_punch_alternation (c : ChargeCode) (h0 : c.times = [])
    (ts : List Nat) (k : Nat) (hk1 : 1 ≤ k) (hkN : k ≤ ts.length) :
    isActive (punchN c (ts.take k)) = some (decide (k % 2 = 1)) ∧
    (punchN c (ts.take k)).times.length = (k + 1) / 2 := by
  have hinv := punchInv_punchN (ts.take k) c 0 (punchInv_zero c h0)
  rw [List.length_take, Nat.min_eq_left hkN, Nat.zero_add] at hinv
  obtain ⟨hlen, hact⟩ := hinv
  rw [if_neg (by omega)] at hact
  exact ⟨hact, hlen⟩

/-- Closed instance of the C1 theorem at a concrete punch sequence. -/
theorem chargecode_punch_alternation_witness :
    isActive (punchN ⟨"code", "desc", 1, []⟩ ([5, 9, 11].take 2)) =
      some (decide (2 % 2 = 1)) ∧
    (punchN (⟨"code", "desc", 1, []⟩ : ChargeCode) ([5, 9, 11].take 2)).times.length =
      (2 + 1) / 2 :=
  chargecode_punch_alternation ⟨"code", "desc", 1, []⟩ rfl [5, 9, 11] 2
    (by decide) (by decide)

/-! ### The last-open-only invariant (C2) -/

/-- At most the last tuple of a times list may be open (length 1); all
preceding tuples are closed (length 2), and the last is open or closed. -/
def lastOpenOnly (l : List (List Nat)) : Prop :=
  (∀ e ∈ l.dropLast, e.length = 2) ∧
  (∀ e, l.getLast? = some e → e.length = 1 ∨ e.length = 2)

theorem mem_dropLast_or_getLast {α : Type} {l : List α} {e : α} (he : e ∈ l) :
    e ∈ l.dropLast ∨ l.getLast? = some e := by
  induction l with
  | nil => simp at he
  | cons a rest ih =>
    cases rest with
    | nil =>
      simp at he
      subst he
      right
      rfl
    | cons b rest2 =>
      rcases List.mem_cons.mp he with h | h
      · subst h
        left
        simp
      · rcases ih h with h2 | h2
        · left
          simpa using Or.inr h2
        · right
          rwa [List.getLast?_cons_cons]

/-- C2.  The last-open-only invariant holds of a fresh ChargeCode and is
preserved by every punch: punching never produces two consecutive open
intervals. -/
theorem punch_preserves_lastOpenOnly :
    lastOpenOnly ([] : List (List Nat)) ∧
    ∀ (c : ChargeCode) (t : Nat),
      lastOpenOnly c.times → lastOpenOnly (punch c t).times := by
  constructor
  · exact ⟨by simp, by simp⟩
  · intro c t h
    obtain ⟨hclosed, hlast⟩ := h
    by_cases hact : isActive c = some true
    · rw [punch, if_pos hact]
      constructor
      · intro e he
        rw [List.dropLast_concat] at he
        exact hclosed e he
      · intro e he
        rw [List.getLast?_concat] at he
        cases he
        right
        rfl
    · rw [punch, if_neg hact]
      have hall2 : ∀ e ∈ c.times, e.length = 2 := by
        intro e he
        rcases mem_dropLast_or_getLast he with h2 | h2
        · exact hclosed e h2
        · rcases hlast e h2 with h1 | h1
          · exfalso
            apply hact
            simp [isActive, h2, h1]
          · exact h1
      constructor
      · intro e he
        rw [List.dropLast_concat] at he
        exact hall2 e he
      · intro e he
        rw [List.getLast?_concat] at he
        cases he
        left
        rfl

/-- Closed instance of the C2 theorem at a concrete state. -/
theorem punch_preserves_lastOpenOnly_witness :
    lastOpenOnly ([] : List (List Nat)) ∧
    lastOpenOnly (punch ⟨"code", "desc", 1, [[3, 4]]⟩ 7).times :=
  ⟨punch_preserves_lastOpenOnly.1,
    punch_preserves_lastOpenOnly.2 ⟨"code", "desc", 1, [[3, 4]]⟩ 7
      ⟨by decide, by decide⟩⟩

/-! ### Association list lemmas -/

theorem mem_keysOf_of_lookupKey {l : List (String × α)} {k : String} {v : α}
    (h : lookupKey k l = some v) : k ∈ keysOf l := by
  induction l with
  | nil => simp [lookupKey] at h
  | cons kv rest ih =>
    rw [lookupKey] at h
    by_cases hk : kv.1 = k
    · simp [keysOf, hk]
    · rw [if_neg hk] at h
      simpa [keysOf] using Or.inr (ih h)

theorem mem_keysOf_cons {kv : String × α} {rest : List (String × α)} {k : String} :
    k ∈ keysOf (kv :: rest) ↔ kv.1 = k ∨ k ∈ keysOf rest := by
  simp only [keysOf, List.map_cons, List.mem_cons]
  constructor
  · rintro (h | h)
    exacts [Or.inl h.symm, Or.inr h]
  · rintro (h | h)
    exacts [Or.inl h.symm, Or.inr h]

theorem mem_pair_of_lookupKey {l : List (String × α)} {k : String} {v : α}
    (h : lookupKey k l = some v) : (k, v) ∈ l := by
  induction l with
  | nil => simp [lookupKey] at h
  | cons kv rest ih =>
    rw [lookupKey] at h
    by_cases hk : kv.1 = k
    · rw [if_pos hk] at h
      cases h
      have heq : (k, kv.2) = kv := by
        rw [← hk]
      rw [heq]
      exact List.mem_cons_self _ _
    · rw [if_neg hk] at h
      exact List.mem_cons_of_mem kv (ih h)

theorem lookupKey_eq_none_of_not_mem {l : List (String × α)} {k : String}
    (h : k ∉ keysOf l) : lookupKey k l = none := by
  induction l with
  | nil => rfl
  | cons kv rest ih =>
    rw [lookupKey, if_neg ?_]
    · exact ih (fun hm => h (by simpa [keysOf] using Or.inr hm))
    · intro he
      exact h (by simp [keysOf, he])

theorem lookupKey_isSome_of_mem {l : List (String × α)} {k : String}
    (h : k ∈ keysOf l) : ∃ v, lookupKey k l = some v := by
  induction l with
  | nil => simp [keysOf] at h
  | cons kv rest ih =>
    by_cases hk : kv.1 = k
    · exact ⟨kv.2, by rw [lookupKey, if_pos hk]⟩
    · have hmem : k ∈ keysOf rest := by
        rcases mem_keysOf_cons.mp h with h2 | h2
        · exact absurd h2 hk
        · exact h2
      obtain ⟨v, hv⟩ := ih hmem
      exact ⟨v, by rw [lookupKey, if_neg hk, hv]⟩

theorem lookupKey_append_of_none {l1 l2 : List (String × α)} {k : String}
    (h : lookupKey k l1 = none) : lookupKey k (l1 ++ l2) = lookupKey k l2 := by
  induction l1 with
  | nil => rfl
  | cons kv rest ih =>
    rw [lookupKey] at h
    by_cases hk : kv.1 = k
    · rw [if_pos hk] at h
      cases h
    · rw [if_neg hk] at h
      rw [List.cons_append, lookupKey, if_neg hk]
      exact ih h

theorem lookupKey_self_append {l : List (String × α)} {k : String} {v : α}
    (h : k ∉ keysOf l) : lookupKey k (l ++ [(k, v)]) = some v := by
  rw [lookupKey_append_of_none (lookupKey_eq_none_of_not_mem h)]
  simp [lookupKey]

theorem lookupKey_append_single_other {l : List (String × α)} {k k2 : String}
    {v : α} (h : k ≠ k2) : lookupKey k (l ++ [(k2, v)]) = lookupKey k l := by
  induction l with
  | nil =>
    show lookupKey k [(k2, v)] = none
    rw [lookupKey, if_neg (fun he => h he.symm)]
    rfl
  | cons kv rest ih =>
    by_cases hkv : kv.1 = k
    · rw [List.cons_append, lookupKey, if_pos hkv, lookupKey, if_pos hkv]
    · rw [List.cons_append, lookupKey, if_neg hkv, lookupKey, if_neg hkv]
      exact ih

theorem lookupKey_map_replace_self {l : List (String × α)} {k : String} {v : α}
    (h : k ∈ keysOf l) :
    lookupKey k (l.map (fun kv => if kv.1 = k then (kv.1, v) else kv)) = some v := by
  induction l with
  | nil => simp [keysOf] at h
  | cons kv rest ih =>
    by_cases hk : kv.1 = k
    · simp only [List.map_cons, if_pos hk, lookupKey]
    · have hmem : k ∈ keysOf rest := by
        rcases mem_keysOf_cons.mp h with h2 | h2
        · exact absurd h2 hk
        · exact h2
      simp only [List.map_cons, if_neg hk, lookupKey, ih hmem]

theorem lookupKey_map_replace_other {l : List (String × α)} {k k2 : String} {v : α}
    (h : k2 ≠ k) :
    lookupKey k2 (l.map (fun kv => if kv.1 = k then (kv.1, v) else kv)) =
      lookupKey k2 l := by
  induction l with
  | nil => rfl
  | cons kv rest ih =>
    by_cases hk : kv.1 = k
    · simp only [List.map_cons, if_pos hk, lookupKey]
      rw [if_neg (by rw [hk]; exact fun h2 => h h2.symm), if_neg (by
        rw [hk]; exact fun h2 => h h2.symm)]
      exact ih
    · simp only [List.map_cons, if_neg hk, lookupKey]
      by_cases hk2 : kv.1 = k2
      · rw [if_pos hk2, if_pos hk2]
      · rw [if_neg hk2, if_neg hk2]
        exact ih

theorem keysOf_map_replace {l : List (String × α)} {k : String} {v : α} :
    keysOf (l.map (fun kv => if kv.1 = k then (kv.1, v) else kv)) = keysOf l := by
  induction l with
  | nil => rfl
  | cons kv rest ih =>
    by_cases hk : kv.1 = k
    · simp only [List.map_cons, if_pos hk, keysOf, List.map_cons] at ih ⊢
      rw [ih]
    · simp only [List.map_cons, if_neg hk, keysOf, List.map_cons] at ih ⊢
      rw [ih]

theorem lookupKey_removeKey_other {l : List (String × α)} {k s : String}
    (h : k ≠ s) : lookupKey k (removeKey s l) = lookupKey k l := by
  induction l with
  | nil => rfl
  | cons kv rest ih =>
    rw [removeKey]
    by_cases hk : kv.1 = s
    · rw [if_pos hk, lookupKey, if_neg (by rw [hk]; exact fun h2 => h h2.symm)]
    · rw [if_neg hk, lookupKey, lookupKey]
      by_cases hk2 : kv.1 = k
      · rw [if_pos hk2, if_pos hk2]
      · rw [if_neg hk2, if_neg hk2]
        exact ih

theorem lookupKey_removeKey_self {l : List (String × α)} {s : String}
    (h : (keysOf l).Nodup) : lookupKey s (removeKey s l) = none := by
  induction l with
  | nil => rfl
  | cons kv rest ih =>
    rw [removeKey]
    have hnd : (keysOf rest).Nodup := (List.nodup_cons.mp h).2
    by_cases hk : kv.1 = s
    · rw [if_pos hk]
      apply lookupKey_eq_none_of_not_mem
      rw [← hk]
      exact (List.nodup_cons.mp h).1
    · rw [if_neg hk, lookupKey, if_neg hk]
      exact ih hnd

/-! ### Hydration (C3) -/

/-- Helper: when the ledger keys all parse as ints, and str(id) is a key
with a parseable entry, construction hydrates by appending the parsed
entry, in file order, after the constructor-given intervals. -/
theorem postInitTimes_hydrate (led : Ledger) (i : Int)
    (initial : List (List Nat)) (ks : List Int)
    (hks : traverseOption strToInt (keysOf led) = some ks)
    (entry : List (List String))
    (hlook : lookupKey (intToStr i) led = some entry)
    (parsed : List (List Nat))
    (hparse : traverseOption (fun e => traverseOption strToNat e) entry = some parsed) :
    postInitTimes led i initial = some (initial ++ parsed) := by
  have hmem : i ∈ ks :=
    traverseOption_mem hks (mem_keysOf_of_lookupKey hlook) (strToInt_intToStr i)
  simp [postInitTimes, hks, hmem, hlook, hparse]

/-- C3 counterexample: a ledger entry for id 1 and a constructor-given
initial interval list; hydration appends after the initial list rather
than replacing it, so the resulting times differ from the ledger entry. -/
theorem postInit_not_full_replace :
    postInitTimes [("1", [["2"]])] 1 [[7]] = some [[7], [2]] ∧
    ([[7], [2]] : List (List Nat)) ≠ [[2]] := by
  decide

/-- C3 amended: construction appends the ledger's entry for the id, in
file order, after whatever initial intervals the constructor was given;
the times equal the ledger's entry exactly when the initial list is empty
(the dataclass default). -/
theorem postInit_appends_ledger_entry (led : Ledger) (i : Int)
    (initial : List (List Nat)) (ks : List Int)
    (hks : traverseOption strToInt (keysOf led) = some ks)
    (entry : List (List String))
    (hlook : lookupKey (intToStr i) led = some entry)
    (parsed : List (List Nat))
    (hparse : traverseOption (fun e => traverseOption strToNat e) entry = some parsed) :
    postInitTimes led i initial = some (initial ++ parsed) ∧
    postInitTimes led i [] = some parsed := by
  refine ⟨postInitTimes_hydrate led i initial ks hks entry hlook parsed hparse, ?_⟩
  simpa using postInitTimes_hydrate led i [] ks hks entry hlook parsed hparse

/-- Closed instance of the amended C3 theorem at a concrete ledger. -/
theorem postInit_appends_ledger_entry_witness :
    postInitTimes [("1", [["2"]])] 1 [[7]] = some ([[7]] ++ [[2]]) ∧
    postInitTimes [("1", [["2"]])] 1 [] = some [[2]] :=
  postInit_appends_ledger_entry [("1", [["2"]])] 1 [[7]] [1] (by decide)
    [["2"]] (by decide) [[2]] (by decide)

/-! ### Registry write (C4) -/

/-- C4.  write_class on an id already present in the registry rewrites the
document unchanged (the stored name and description are never
overwritten); for an id not yet present it appends the code's metadata
under the id's decimal key, leaving every other key's entry unchanged. -/
theorem writeClass_no_overwrite (reg : Registry) (c : ChargeCode) :
    (intToStr c.id ∈ keysOf reg → writeClass reg c = reg) ∧
    (intToStr c.id ∉ keysOf reg →
      lookupKey (intToStr c.id) (writeClass reg c) = some (metaOf c) ∧
      ∀ k : String, k ≠ intToStr c.id →
        lookupKey k (writeClass reg c) = lookupKey k reg) := by
  constructor
  · intro h
    rw [writeClass, if_pos h]
  · intro h
    rw [writeClass, if_neg h]
    exact ⟨lookupKey_self_append h,
      fun k hk => lookupKey_append_single_other hk⟩

/-- Closed instance of the C4 theorem at a concrete registry. -/
theorem writeClass_no_overwrite_witness :
    writeClass [("1", ⟨"old", "kept", 1⟩)] ⟨"new", "meta", 1, []⟩ =
      [("1", ⟨"old", "kept", 1⟩)] ∧
    lookupKey "2" (writeClass [] ⟨"n", "d", 2, []⟩) =
      some (metaOf ⟨"n", "d", 2, []⟩) :=
  ⟨(writeClass_no_overwrite [("1", ⟨"old", "kept", 1⟩)] ⟨"new", "meta", 1, []⟩).1
      (by decide),
    ((writeClass_no_overwrite [] ⟨"n", "d", 2, []⟩).2 (by decide)).1⟩

/-! ### Ledger write (C5) -/

/-- Helper: write_json sets the entry of the code's own key to the full
serialized times of the code, whatever the previous entry was. -/
theorem writeJson_lookup_self (led : Ledger) (c : ChargeCode) :
    lookupKey (intToStr c.id) (writeJson led c) = some (serializeTimes c) := by
  rw [writeJson]
  by_cases h : intToStr c.id ∈ keysOf led
  · rw [if_pos h]
    exact lookupKey_map_replace_self h
  · rw [if_neg h]
    exact lookupKey_self_append h

/-- Helper: write_json leaves the entry of every other key unchanged. -/
theorem writeJson_lookup_other (led : Ledger) (c : ChargeCode) (k : String)
    (hk : k ≠ intToStr c.id) :
    lookupKey k (writeJson led c) = lookupKey k led := by
  rw [writeJson]
  by_cases h : intToStr c.id ∈ keysOf led
  · rw [if_pos h]
    exact lookupKey_map_replace_other hk
  · rw [if_neg h]
    exact lookupKey_append_single_other hk

/-- C5.  For every parsed ledger document, write_json replaces the entry
for the code's id with the code's full current serialized interval
sequence and leaves the entry of every other id unchanged. -/
theorem writeJson_replace_frame (led : Ledger) (c : ChargeCode) (k : String)
    (hk : k ≠ intToStr c.id) :
    lookupKey (intToStr c.id) (writeJson led c) = some (serializeTimes c) ∧
    lookupKey k (writeJson led c) = lookupKey k led :=
  ⟨writeJson_lookup_self led c, writeJson_lookup_other led c k hk⟩

/-- Closed instance of the C5 theorem at a concrete ledger. -/
theorem writeJson_replace_frame_witness :
    lookupKey (intToStr (1 : Int))
        (writeJson [("2", [["9"]]), ("1", [["5", "6"]])] ⟨"n", "d", 1, [[3]]⟩) =
      some (serializeTimes ⟨"n", "d", 1, [[3]]⟩) ∧
    lookupKey "2" (writeJson [("2", [["9"]]), ("1", [["5", "6"]])] ⟨"n", "d", 1, [[3]]⟩) =
      lookupKey "2" [("2", [["9"]]), ("1", [["5", "6"]])] :=
  writeJson_replace_frame [("2", [["9"]]), ("1", [["5", "6"]])] ⟨"n", "d", 1, [[3]]⟩
    "2" (by decide)

/-! ### Round-trip through the ledger (C6) -/

/-- Helper: parsing the serialized times of a code recovers the times
exactly, tuple by tuple and instant by instant. -/
theorem parse_serializeTimes (c : ChargeCode) :
    traverseOption (fun e => traverseOption strToNat e) (serializeTimes c) =
      some c.times := by
  unfold serializeTimes
  exact traverseOption_map_roundtrip
    (fun e => traverseOption_map_roundtrip strToNat_natToString e) c.times

/-- C6.  After write_json persists a code's intervals, constructing a new
ChargeCode with the same id (and the default empty initial list) against
the updated ledger reproduces exactly the same ordered interval sequence,
at full instant precision. -/
theorem writeJson_construct_roundtrip (led : Ledger) (c : ChargeCode)
    (n d : String)
    (hks : ∀ k ∈ keysOf led, ∃ j : Int, strToInt k = some j) :
    mkChargeCode n d c.id [] (writeJson led c) = some ⟨n, d, c.id, c.times⟩ := by
  have hks2 : ∀ k ∈ keysOf (writeJson led c), ∃ j : Int, strToInt k = some j := by
    intro k hkmem
    rw [writeJson] at hkmem
    by_cases h : intToStr c.id ∈ keysOf led
    · rw [if_pos h, keysOf_map_replace] at hkmem
      exact hks k hkmem
    · rw [if_neg h] at hkmem
      simp only [keysOf, List.map_append, List.map_cons, List.map_nil,
        List.mem_append, List.mem_singleton] at hkmem
      rcases hkmem with h2 | h2
      · exact hks k h2
      · subst h2
        exact ⟨c.id, strToInt_intToStr c.id⟩
  obtain ⟨ks, hkstr⟩ :=
    traverseOption_eq_some_of_forall (keysOf (writeJson led c)) hks2
  have hhyd := postInitTimes_hydrate (writeJson led c) c.id [] ks hkstr
    (serializeTimes c) (writeJson_lookup_self led c) c.times
    (parse_serializeTimes c)
  rw [mkChargeCode, hhyd]
  simp

/-- Closed instance of the C6 theorem at a concrete ledger and code. -/
theorem writeJson_construct_roundtrip_witness :
    mkChargeCode "x2" "y2" (1 : Int)
        [] (writeJson [("2", [["9"]])] ⟨"x", "y", 1, [[3], [4, 5]]⟩) =
      some ⟨"x2", "y2", 1, [[3], [4, 5]]⟩ :=
  writeJson_construct_roundtrip [("2", [["9"]])] ⟨"x", "y", 1, [[3], [4, 5]]⟩
    "x2" "y2"
    (by
      intro k hkm
      simp [keysOf] at hkm
      subst hkm
      exact ⟨2, by decide⟩)

/-! ### Decoding lemmas for get_code and delete_charge -/

theorem traverseOption_cons_inv {f : α → Option β} {a : α} {rest : List α}
    {ys : List β} (h : traverseOption f (a :: rest) = some ys) :
    ∃ b bs, f a = some b ∧ traverseOption f rest = some bs ∧ ys = b :: bs := by
  simp only [traverseOption] at h
  cases hfa : f a with
  | none => rw [hfa] at h; simp at h
  | some b =>
    rw [hfa] at h
    cases htr : traverseOption f rest with
    | none => rw [htr] at h; simp at h
    | some bs =>
      rw [htr] at h
      simp only [Option.some.injEq] at h
      exact ⟨b, bs, rfl, rfl, h.symm⟩

theorem traverseOption_mem_rev {f : α → Option β} :
    ∀ {l : List α} {ys : List β} {b : β},
      traverseOption f l = some ys → b ∈ ys → ∃ a ∈ l, f a = some b := by
  intro l
  induction l with
  | nil =>
    intro ys b h hb
    simp only [traverseOption, Option.some.injEq] at h
    subst h
    simp at hb
  | cons a rest ih =>
    intro ys b h hb
    obtain ⟨b2, bs, hfa, htr, rfl⟩ := traverseOption_cons_inv h
    rcases List.mem_cons.mp hb with h2 | h2
    · subst h2
      exact ⟨a, List.mem_cons_self a rest, hfa⟩
    · obtain ⟨a2, ha2, hfa2⟩ := ih htr h2
      exact ⟨a2, List.mem_cons_of_mem a ha2, hfa2⟩

theorem decodeRegistry_keys {led : Ledger} :
    ∀ {reg : Registry} {codes : List (String × ChargeCode)},
      decodeRegistry reg led = some codes → keysOf codes = keysOf reg := by
  intro reg
  induction reg with
  | nil =>
    intro codes h
    simp only [decodeRegistry, traverseOption, Option.some.injEq] at h
    subst h
    rfl
  | cons kv rest ih =>
    intro codes h
    obtain ⟨b, bs, hfa, htr, rfl⟩ := traverseOption_cons_inv h
    obtain ⟨c, _, hbc⟩ := Option.map_eq_some'.mp hfa
    subst hbc
    have := ih htr
    simp only [keysOf, List.map_cons] at this ⊢
    rw [this]

theorem decodeRegistry_lookup {led : Ledger} :
    ∀ {reg : Registry} {codes : List (String × ChargeCode)} {k : String}
      {m : CodeMeta},
      decodeRegistry reg led = some codes → lookupKey k reg = some m →
      ∃ c, decodeEntry led m = some c ∧ lookupKey k codes = some c := by
  intro reg
  induction reg with
  | nil => intro codes k m _ hl; simp [lookupKey] at hl
  | cons kv rest ih =>
    intro codes k m h hl
    obtain ⟨b, bs, hfa, htr, rfl⟩ := traverseOption_cons_inv h
    obtain ⟨c, hc, hbc⟩ := Option.map_eq_some'.mp hfa
    subst hbc
    rw [lookupKey] at hl
    by_cases hk : kv.1 = k
    · rw [if_pos hk] at hl
      cases hl
      exact ⟨c, hc, by rw [lookupKey, if_pos hk]⟩
    · rw [if_neg hk] at hl
      obtain ⟨c2, hc2, hl2⟩ := ih htr hl
      exact ⟨c2, hc2, by rw [lookupKey, if_neg hk]; exact hl2⟩

theorem decodeRegistry_total {led : Ledger} {reg : Registry}
    (h : ∀ kv ∈ reg, ∃ c, decodeEntry led kv.2 = some c) :
    ∃ codes, decodeRegistry reg led = some codes := by
  apply traverseOption_eq_some_of_forall
  intro kv hkv
  obtain ⟨c, hc⟩ := h kv hkv
  exact ⟨(kv.1, c), by rw [hc]; rfl⟩

/-- The ledger keys are in canonical decimal form: each parses as an int
whose decimal rendering is the key itself.  This holds of every ledger the
program itself writes (write_json keys entries by str(id)). -/
def CanonKeys (led : Ledger) : Prop :=
  ∀ k ∈ keysOf led, ∃ j : Int, strToInt k = some j ∧ intToStr j = k

/-- Every ledger entry parses with datetime.fromisoformat.  This holds of
every ledger the program itself writes (write_json serializes with
datetime.isoformat). -/
def ParsableVals (led : Ledger) : Prop :=
  ∀ kv ∈ led, ∃ p, traverseOption (fun e => traverseOption strToNat e) kv.2 = some p

theorem postInitTimes_total {led : Ledger} (hc : CanonKeys led)
    (hp : ParsableVals led) (i : Int) (initial : List (List Nat)) :
    ∃ ts, postInitTimes led i initial = some ts := by
  obtain ⟨ks, hkstr⟩ := traverseOption_eq_some_of_forall (keysOf led)
    (fun k hk => (hc k hk).imp fun j hj => hj.1)
  by_cases hmem : i ∈ ks
  · obtain ⟨k, hkmem, hki⟩ := traverseOption_mem_rev hkstr hmem
    obtain ⟨j, hj1, hj2⟩ := hc k hkmem
    have hji : j = i := by
      rw [hki] at hj1
      exact (Option.some.inj hj1).symm
    subst hji
    obtain ⟨entry, hlook⟩ := lookupKey_isSome_of_mem (hj2 ▸ hkmem)
    obtain ⟨parsed, hparse⟩ := hp (intToStr j, entry) (mem_pair_of_lookupKey hlook)
    exact ⟨initial ++ parsed,
      postInitTimes_hydrate led j initial ks hkstr entry hlook parsed hparse⟩
  · exact ⟨initial, by simp [postInitTimes, hkstr, hmem]⟩

/-! ### get_code outcomes (C7) -/

/-- C7.  A non-integer id is rejected by the assert whatever the state of
the registry file (no file access can influence the outcome); an integer
id absent from a decodable registry yields the non-fatal not-found outcome
(None plus a printed message); and that outcome is a different result from
an I/O error or a propagated exception. -/
theorem getCode_reject_and_not_found :
    (∀ (s : String) (file : RegFile) (led : Ledger),
      getCode (.str s) file led = .assertError) ∧
    (∀ (n : Int) (reg : Registry) (led : Ledger)
      (codes : List (String × ChargeCode)),
      decodeRegistry reg led = some codes → intToStr n ∉ keysOf reg →
      getCode (.int n) (.ok reg) led = .notFound) ∧
    GetCodeResult.notFound ≠ GetCodeResult.ioError ∧
    GetCodeResult.notFound ≠ GetCodeResult.raised ∧
    GetCodeResult.assertError ≠ GetCodeResult.ioError := by
  refine ⟨fun s file led => rfl, ?_, by decide, by decide, by decide⟩
  intro n reg led codes hcodes hnm
  have hnone : lookupKey (intToStr n) codes = none :=
    lookupKey_eq_none_of_not_mem (by rw [decodeRegistry_keys hcodes]; exact hnm)
  simp [getCode, hcodes, hnone]

/-- Closed instance of the C7 theorem at concrete states. -/
theorem getCode_reject_and_not_found_witness :
    getCode (.str "oops") .ioErr [] = .assertError ∧
    getCode (.int 2) (.ok [("1", ⟨"n", "d", 1⟩)]) [] = .notFound :=
  ⟨getCode_reject_and_not_found.1 "oops" .ioErr [],
    getCode_reject_and_not_found.2.1 2 [("1", ⟨"n", "d", 1⟩)] []
      [("1", ⟨"n", "d", 1, []⟩)] (by decide) (by decide)⟩

/-! ### get_code hydration (C9) -/

/-- C9.  For an id present in a registry whose entries carry that id, and
a canonically keyed, parseable ledger holding an entry for the id,
get_code returns a ChargeCode already hydrated with the id's full interval
history from the ledger, although the registry file itself stores no
intervals: decoding a registry entry constructs a ChargeCode, whose
construction reads the ledger. -/
theorem getCode_returns_hydrated (n : Int) (reg : Registry) (led : Ledger)
    (m : CodeMeta) (entry : List (List String)) (parsed : List (List Nat))
    (hc : CanonKeys led) (hp : ParsableVals led)
    (hreg : lookupKey (intToStr n) reg = some m) (hid : m.id = n)
    (hled : lookupKey (intToStr n) led = some entry)
    (hparse : traverseOption (fun e => traverseOption strToNat e) entry =
      some parsed) :
    getCode (.int n) (.ok reg) led = .found ⟨m.name, m.description, n, parsed⟩ := by
  have htotal : ∀ kv ∈ reg, ∃ c, decodeEntry led kv.2 = some c := by
    intro kv _
    obtain ⟨ts, hts⟩ := postInitTimes_total hc hp kv.2.id []
    exact ⟨⟨kv.2.name, kv.2.description, kv.2.id, ts⟩,
      by rw [decodeEntry, mkChargeCode, hts]; rfl⟩
  obtain ⟨codes, hcodes⟩ := decodeRegistry_total htotal
  obtain ⟨c, hdec, hlookc⟩ := decodeRegistry_lookup hcodes hreg
  obtain ⟨ks, hkstr⟩ := traverseOption_eq_some_of_forall (keysOf led)
    (fun k hk => (hc k hk).imp fun j hj => hj.1)
  have hyd := postInitTimes_hydrate led n [] ks hkstr entry hled parsed hparse
  have hdec2 : decodeEntry led m = some ⟨m.name, m.description, n, parsed⟩ := by
    rw [decodeEntry, mkChargeCode, hid, hyd]
    simp
  have hce : c = ⟨m.name, m.description, n, parsed⟩ :=
    Option.some.inj (hdec.symm.trans hdec2)
  subst hce
  simp [getCode, hcodes, hlookc]

/-- Closed instance of the C9 theorem at a concrete registry and ledger. -/
theorem getCode_returns_hydrated_witness :
    getCode (.int 1) (.ok [("1", ⟨"n", "d", 1⟩)]) [("1", [["2", "3"], ["7"]])] =
      .found ⟨"n", "d", 1, [[2, 3], [7]]⟩ :=
  getCode_returns_hydrated 1 [("1", ⟨"n", "d", 1⟩)] [("1", [["2", "3"], ["7"]])]
    ⟨"n", "d", 1⟩ [["2", "3"], ["7"]] [[2, 3], [7]]
    (by
      intro k hk
      simp [keysOf] at hk
      subst hk
      exact ⟨1, by decide, by decide⟩)
    (by
      intro kv hkv
      simp at hkv
      subst hkv
      exact ⟨[[2, 3], [7]], by decide⟩)
    (by decide) (by decide) (by decide) (by decide)

/-! ### general_report error behaviour (C8) -/

theorem maxRowLen_cons (e : List Nat) (rest : List (List Nat)) :
    maxRowLen (e :: rest) = Nat.max e.length (maxRowLen rest) := rfl

theorem maxRowLen_le {rows : List (List Nat)}
    (h : ∀ e ∈ rows, e.length ≤ 2) : maxRowLen rows ≤ 2 := by
  induction rows with
  | nil => simp [maxRowLen]
  | cons e rest ih =>
    rw [maxRowLen_cons]
    exact Nat.max_le.mpr ⟨h e (List.mem_cons_self e rest),
      ih (fun x hx => h x (List.mem_cons_of_mem e hx))⟩

theorem le_maxRowLen {rows : List (List Nat)} {e : List Nat} (he : e ∈ rows) :
    e.length ≤ maxRowLen rows := by
  induction rows with
  | nil => simp at he
  | cons a rest ih =>
    rw [maxRowLen_cons]
    rcases List.mem_cons.mp he with h | h
    · subst h
      exact Nat.le_max_left _ _
    · exact Nat.le_trans (ih h) (Nat.le_max_right _ _)

theorem maxRowLen_all_one {rows : List (List Nat)} (hne : rows ≠ [])
    (h1 : ∀ e ∈ rows, e.length = 1) : maxRowLen rows = 1 := by
  induction rows with
  | nil => exact absurd rfl hne
  | cons e rest ih =>
    rw [maxRowLen_cons, h1 e (List.mem_cons_self e rest)]
    cases rest with
    | nil => rfl
    | cons b rest2 =>
      rw [ih (by simp) (fun x hx => h1 x (List.mem_cons_of_mem e hx))]
      rfl

/-- C8 counterexample: a times list holding one closed interval followed
by one open interval (exactly the state of an active code with history)
contains an interval missing its end, yet general_report raises no
ThymedError: the DataFrame is two columns wide and pads the open row with
a missing clock_out instead of raising ValueError. -/
theorem generalReport_open_interval_no_error :
    (⟨"n", "d", 1, [[0, 1], [2]]⟩ : ChargeCode).times.any
        (fun e => decide (e.length = 1)) = true ∧
    generalReportThymedError ⟨"n", "d", 1, [[0, 1], [2]]⟩ = false := by
  decide

/-- C8 amended: with every interval open (length 1) or closed (length 2),
general_report raises the ThymedError exactly when the times list is
nonempty and every interval is open (only then is the data narrower than
the two column labels); in particular a code whose intervals are all
closed raises no such error, and a lone open interval does raise it. -/
theorem generalReport_error_characterization (c : ChargeCode)
    (h : ∀ e ∈ c.times, e.length = 1 ∨ e.length = 2) :
    generalReportThymedError c = true ↔
      (c.times ≠ [] ∧ ∀ e ∈ c.times, e.length = 1) := by
  unfold generalReportThymedError pdValueError
  cases hct : c.times with
  | nil => simp
  | cons e rest =>
    rw [hct] at h
    simp only [List.isEmpty_cons, Bool.not_false, Bool.true_and, bne_iff_ne,
      ne_eq]
    constructor
    · intro hlhs
      refine ⟨by simp, ?_⟩
      intro x hx
      rcases h x hx with h1 | h2
      · exact h1
      · exfalso
        apply hlhs
        have hle : maxRowLen (e :: rest) ≤ 2 :=
          maxRowLen_le (fun y hy => by rcases h y hy with h3 | h3 <;> omega)
        have hge : 2 ≤ maxRowLen (e :: rest) := h2 ▸ le_maxRowLen hx
        omega
    · rintro ⟨_, hall⟩
      rw [maxRowLen_all_one (by simp) hall]
      omega

/-- Closed instance of the amended C8 theorem at a lone open interval. -/
theorem generalReport_error_characterization_witness :
    generalReportThymedError ⟨"n", "d", 1, [[5]]⟩ = true ↔
      (([[5]] : List (List Nat)) ≠ [] ∧ ∀ e ∈ [([5] : List Nat)], e.length = 1) :=
  generalReport_error_characterization ⟨"n", "d", 1, [[5]]⟩ (by decide)

/-! ### delete_charge (C10) -/

theorem decodeEntry_metaOf {led : Ledger} {m : CodeMeta} {c : ChargeCode}
    (h : decodeEntry led m = some c) : metaOf c = m := by
  rw [decodeEntry, mkChargeCode] at h
  cases hts : postInitTimes led m.id [] with
  | none => rw [hts] at h; simp at h
  | some ts =>
    rw [hts] at h
    simp only [Option.map_some', Option.some.injEq] at h
    subst h
    rfl

theorem encodeCodes_decode {led : Ledger} :
    ∀ {reg : Registry} {codes : List (String × ChargeCode)},
      decodeRegistry reg led = some codes → encodeCodes codes = reg := by
  intro reg
  induction reg with
  | nil =>
    intro codes h
    simp only [decodeRegistry, traverseOption, Option.some.injEq] at h
    subst h
    rfl
  | cons kv rest ih =>
    intro codes h
    obtain ⟨b, bs, hfa, htr, rfl⟩ := traverseOption_cons_inv h
    obtain ⟨c, hc, hbc⟩ := Option.map_eq_some'.mp hfa
    subst hbc
    show (kv.1, metaOf c) :: encodeCodes bs = kv :: rest
    rw [decodeEntry_metaOf hc, ih htr]

theorem encodeCodes_removeKey (s : String) :
    ∀ codes : List (String × ChargeCode),
      encodeCodes (removeKey s codes) = removeKey s (encodeCodes codes) := by
  intro codes
  induction codes with
  | nil => rfl
  | cons kv rest ih =>
    show encodeCodes (if kv.1 = s then rest else kv :: removeKey s rest) = _
    by_cases hk : kv.1 = s
    · rw [if_pos hk]
      show encodeCodes rest = removeKey s ((kv.1, metaOf kv.2) :: encodeCodes rest)
      rw [removeKey, if_pos hk]
    · rw [if_neg hk]
      show (kv.1, metaOf kv.2) :: encodeCodes (removeKey s rest) =
        removeKey s ((kv.1, metaOf kv.2) :: encodeCodes rest)
      rw [removeKey, if_neg hk, ih]

/-- C10.  delete_charge keys its pops by a string: on a registry and
ledger with decimal-string keys, an int argument raises KeyError even when
its decimal form is a present key, while the decimal-string argument
removes exactly that key's entry from both rewritten documents and leaves
every other key's value unchanged. -/
theorem deleteCharge_string_keyed (n : Int) (s : String) (reg : Registry)
    (led : Ledger) (hc : CanonKeys led) (hp : ParsableVals led)
    (hsr : s ∈ keysOf reg) (hsl : s ∈ keysOf led)
    (hndr : (keysOf reg).Nodup) (hndl : (keysOf led).Nodup) :
    deleteCharge (.int n) reg led = .keyError ∧
    deleteCharge (.str s) reg led = .ok (removeKey s reg) (removeKey s led) ∧
    lookupKey s (removeKey s reg) = none ∧
    lookupKey s (removeKey s led) = none ∧
    (∀ k : String, k ≠ s → lookupKey k (removeKey s reg) = lookupKey k reg) ∧
    (∀ k : String, k ≠ s → lookupKey k (removeKey s led) = lookupKey k led) := by
  have htotal : ∀ kv ∈ reg, ∃ c, decodeEntry led kv.2 = some c := by
    intro kv _
    obtain ⟨ts, hts⟩ := postInitTimes_total hc hp kv.2.id []
    exact ⟨⟨kv.2.name, kv.2.description, kv.2.id, ts⟩,
      by rw [decodeEntry, mkChargeCode, hts]; rfl⟩
  obtain ⟨codes, hcodes⟩ := decodeRegistry_total htotal
  refine ⟨?_, ?_, lookupKey_removeKey_self hndr, lookupKey_removeKey_self hndl,
    fun k hk => lookupKey_removeKey_other hk,
    fun k hk => lookupKey_removeKey_other hk⟩
  · simp [deleteCharge, hcodes, popKey]
  · have hsc : s ∈ keysOf codes := by
      rw [decodeRegistry_keys hcodes]
      exact hsr
    have hpop1 : popKey codes (.str s) = some (removeKey s codes) := by
      rw [popKey, if_pos hsc]
    have hpop2 : popKey led (.str s) = some (removeKey s led) := by
      rw [popKey, if_pos hsl]
    have henc : encodeCodes (removeKey s codes) = removeKey s reg := by
      rw [encodeCodes_removeKey, encodeCodes_decode hcodes]
    simp [deleteCharge, hcodes, hpop1, hpop2, henc]

/-- Closed instance of the C10 theorem at a concrete pair of stores. -/
theorem deleteCharge_string_keyed_witness :
    deleteCharge (.int 1) [("1", ⟨"a", "b", 1⟩), ("2", ⟨"c", "d", 2⟩)]
        [("1", [["3"]]), ("2", [["4", "5"]])] = .keyError ∧
    deleteCharge (.str "1") [("1", ⟨"a", "b", 1⟩), ("2", ⟨"c", "d", 2⟩)]
        [("1", [["3"]]), ("2", [["4", "5"]])] =
      .ok (removeKey "1" [("1", ⟨"a", "b", 1⟩), ("2", ⟨"c", "d", 2⟩)])
        (removeKey "1" [("1", [["3"]]), ("2", [["4", "5"]])]) ∧
    lookupKey "1"
      (removeKey "1" ([("1", ⟨"a", "b", 1⟩), ("2", ⟨"c", "d", 2⟩)] : Registry)) =
      none ∧
    lookupKey "1"
      (removeKey "1" ([("1", [["3"]]), ("2", [["4", "5"]])] : Ledger)) = none ∧
    (∀ k : String, k ≠ "1" →
      lookupKey k
        (removeKey "1" ([("1", ⟨"a", "b", 1⟩), ("2", ⟨"c", "d", 2⟩)] : Registry)) =
        lookupKey k ([("1", ⟨"a", "b", 1⟩), ("2", ⟨"c", "d", 2⟩)] : Registry)) ∧
    (∀ k : String, k ≠ "1" →
      lookupKey k
        (removeKey "1" ([("1", [["3"]]), ("2", [["4", "5"]])] : Ledger)) =
        lookupKey k ([("1", [["3"]]), ("2", [["4", "5"]])] : Ledger)) :=
  deleteCharge_string_keyed 1 "1" [("1", ⟨"a", "b", 1⟩), ("2", ⟨"c", "d", 2⟩)]
    [("1", [["3"]]), ("2", [["4", "5"]])]
    (by
      intro k hk
      simp [keysOf] at hk
      rcases hk with h | h <;> subst h
      · exact ⟨1, by decide, by decide⟩
      · exact ⟨2, by decide, by decide⟩)
    (by
      intro kv hkv
      simp at hkv
      rcases hkv with h | h <;> subst h
      · exact ⟨[[3]], by decide⟩
      · exact ⟨[[4, 5]], by decide⟩)
    (by decide) (by decide) (by decide) (by decide)

end Thymed
